import Mathlib

/-!
# Verification of the review-quality scoring and reward-aggregation engine

A shallow embedding of `template/validator/llm_scorer.py`: the score
aggregator (`_validate_and_aggregate`), the cached oracle call
(`score_review`), per-paper scoring (`score_reviews_for_paper`) and the
grouped ranking / reward / normalization pipeline (`score_reviews_grouped`).

Modelling conventions:
* Python floats are embedded as exact rationals (`ℚ`) for the rubric
  arithmetic and as reals (`ℝ`) once the transcendental decay
  `exp(-0.5·rank)` enters the pipeline.
* A Python value, as seen by `float(...)`, is a `PyVal`: `num q` is any
  value on which `float` succeeds returning `q` (ints, floats, bools and
  numeric strings); `str s` is a string on which `float` raises;
  `other` is a `None`/list/dict, on which `float` raises.
* An exception is an `Option`/`Except` `none`/`error` result; catching it
  is matching on that constructor.
* The SHA-256 hexdigest used as cache key is modelled by the digested
  content string itself: the digest is a deterministic, collision-free
  function of that content.
* The on-disk cache directory is an association list from key to verdict;
  writing a key overwrites (cons in front, first match wins on lookup).
-/

namespace LLMScorer

/-- A Python/JSON value classified by the behaviour of `float(...)` on it:
`num q` converts to the rational `q`, the other constructors make `float`
raise. -/
inductive PyVal where
  | num (q : ℚ)
  | str (s : String)
  | other
  deriving DecidableEq, Repr

/-- Python float: the behaviour of `float(v)`; succeeds exactly on the `num` class. -/
def pyFloat : PyVal → Option ℚ
  | .num q => some q
  | _ => none

/-- Python `dict.get(k)` on the oracle's JSON object (an association list,
first binding wins, mirroring unique dict keys). -/
def lookupField (d : List (String × PyVal)) (k : String) : Option PyVal :=
  (d.find? (fun p => p.1 = k)).map (·.2)

/-- The `CRITERIA` list of `llm_scorer.py`. -/
def CRITERIA : List String :=
  ["comprehension", "technical_depth", "specificity",
   "constructiveness", "evidence_based", "professionalism"]

/-- The `CRITERIA_WEIGHTS` dict of `llm_scorer.py`. -/
def CRITERIA_WEIGHTS : String → ℚ
  | "comprehension" => 0.20
  | "technical_depth" => 0.25
  | "specificity" => 0.20
  | "constructiveness" => 0.15
  | "evidence_based" => 0.15
  | "professionalism" => 0.05
  | _ => 0

/-- The mutated result dict after `_validate_and_aggregate`: the six
criterion entries, `confidence`, the computed `aggregate_score`, and the
passed-through `justification` and `error` entries (the function never
touches those two keys, so they keep whatever raw value the dict held). -/
structure Verdict where
  comprehension : ℚ
  technical_depth : ℚ
  specificity : ℚ
  constructiveness : ℚ
  evidence_based : ℚ
  professionalism : ℚ
  justification : Option PyVal
  confidence : ℚ
  aggregate_score : ℚ
  error : Option PyVal
  deriving DecidableEq, Repr

/-- One criterion pass of the loop in `_validate_and_aggregate`:
absent ⇒ default `0`; present ⇒ `max(0, min(5, float(v)))`, where
`float` may raise (`none`). -/
def clampCriterion (d : List (String × PyVal)) (c : String) : Option ℚ :=
  match lookupField d c with
  | none => some 0
  | some v => (pyFloat v).map (fun q => max 0 (min 5 q))

/-- The confidence pass of `_validate_and_aggregate`:
absent ⇒ default `0.5`; present ⇒ `max(0.0, min(1.0, float(v)))`. -/
def clampConfidence (d : List (String × PyVal)) : Option ℚ :=
  match lookupField d "confidence" with
  | none => some 0.5
  | some v => (pyFloat v).map (fun q => max 0 (min 1 q))

/-- The method `_validate_and_aggregate(result)`: clamp/default each criterion and the
confidence, then `aggregate_score = Σ_c result[c] · CRITERIA_WEIGHTS[c] · 20`
over the six criteria (in `CRITERIA` order, unrolled).  A `float()` failure
on any present field propagates as `none` (the Python exception). -/
def validate_and_aggregate (d : List (String × PyVal)) : Option Verdict := do
  let comp ← clampCriterion d "comprehension"
  let tech ← clampCriterion d "technical_depth"
  let spec ← clampCriterion d "specificity"
  let cons ← clampCriterion d "constructiveness"
  let evid ← clampCriterion d "evidence_based"
  let prof ← clampCriterion d "professionalism"
  let conf ← clampConfidence d
  let aggregate : ℚ :=
    comp * CRITERIA_WEIGHTS "comprehension" * 20
    + tech * CRITERIA_WEIGHTS "technical_depth" * 20
    + spec * CRITERIA_WEIGHTS "specificity" * 20
    + cons * CRITERIA_WEIGHTS "constructiveness" * 20
    + evid * CRITERIA_WEIGHTS "evidence_based" * 20
    + prof * CRITERIA_WEIGHTS "professionalism" * 20
  some { comprehension := comp, technical_depth := tech, specificity := spec,
         constructiveness := cons, evidence_based := evid, professionalism := prof,
         justification := lookupField d "justification",
         confidence := conf, aggregate_score := aggregate,
         error := lookupField d "error" }

/-- The `except`-branch dict of `score_review`: every criterion `0`, an
error justification, confidence `0.0`, aggregate `0.0`, and the `error`
field set to the exception text `e`. -/
def fallbackVerdict (e : String) : Verdict :=
  { comprehension := 0, technical_depth := 0, specificity := 0,
    constructiveness := 0, evidence_based := 0, professionalism := 0,
    justification := some (.str ("Error during scoring: " ++ e)),
    confidence := 0, aggregate_score := 0,
    error := some (.str e) }

/-- The method `_cache_key`: the SHA-256 hexdigest of `f"{model}|{abstract}|{review}"`,
modelled by the digested content itself (deterministic digest). -/
def cache_key (model paper_abstract review_text : String) : String :=
  model ++ "|" ++ paper_abstract ++ "|" ++ review_text

/-- The cache directory: one serialized verdict per key. -/
abbrev Cache : Type := List (String × Verdict)

/-- The method `_get_cached`: read the record for `key`, `none` when the file is
absent. -/
def get_cached (cache : Cache) (key : String) : Option Verdict :=
  ((List.find? (fun p => p.1 = key)) cache).map (·.2)

/-- The method `_save_cache`: (over)write the record for `key`. -/
def save_cache (cache : Cache) (key : String) (v : Verdict) : Cache :=
  (key, v) :: cache

/-- The external oracle (`self.client.chat.completions.create` followed by
`json.loads`), as a function of the two truncated texts embedded in the user
prompt; `error e` is any raised exception (network failure, timeout,
unparseable JSON), carrying its message. -/
def Oracle : Type := String → String → Except String (List (String × PyVal))

/-- Modelled message of the exception `float()` raises inside
`_validate_and_aggregate` (its Python text depends on the offending value
and is abstracted here). -/
def floatErrorMessage : String := "float conversion failed"

/-- The method `score_review(paper_abstract, review_text, use_cache)`: cache lookup,
then oracle call on the truncated texts, validation/aggregation, caching of
the fresh verdict, with the `except`-branch fallback.  Returns the verdict,
the cache after the call, and the number of oracle invocations made (0 or
1). -/
def score_review (model : String) (oracle : Oracle)
    (paper_abstract review_text : String) (use_cache : Bool)
    (cache : Cache) : Verdict × Cache × ℕ :=
  match (if use_cache then
          get_cached cache (cache_key model paper_abstract review_text)
         else none) with
  | some v => (v, cache, 0)
  | none =>
    match oracle (paper_abstract.take 1000) (review_text.take 3000) with
    | .error e => (fallbackVerdict e, cache, 1)
    | .ok raw =>
      match validate_and_aggregate raw with
      | none => (fallbackVerdict floatErrorMessage, cache, 1)
      | some v =>
        (v, if use_cache then
              save_cache cache (cache_key model paper_abstract review_text) v
            else cache, 1)

/-- One review dict of the grouped pipeline:
`{"miner_uid": i, "review_text": response.review_text}` (the synapse
back-pointer is the index `miner_uid` itself in this embedding). -/
structure GroupedReview where
  miner_uid : ℕ
  review_text : Option String
  deriving DecidableEq, Repr

/-- A score dict appended by `score_reviews_for_paper`: either a full
verdict from `score_review`, or the slim
`{"aggregate_score": 0.0, "confidence": 0.0, "error": "Empty review"}`
dict for an empty review text. -/
inductive Score where
  | verdict (v : Verdict)
  | emptyReview
  deriving DecidableEq, Repr

/-- Dict access `s["aggregate_score"]` (present in both dict shapes). -/
def Score.aggregate_score : Score → ℚ
  | .verdict v => v.aggregate_score
  | .emptyReview => 0

/-- Dict access `s.get("confidence", 1.0)`: both dict shapes carry a `confidence`
entry, so the default `1.0` is unreachable. -/
def Score.confidence : Score → ℚ
  | .verdict v => v.confidence
  | .emptyReview => 0

/-- The loop body of `score_reviews_for_paper` for one review:
`review.get("review_text", "")` is falsy (absent, `None` or `""`) ⇒ the
slim zero dict with no oracle involvement; otherwise `score_review` with
the default `use_cache=True`. -/
def scoreOne (model : String) (oracle : Oracle) (paper_abstract : String)
    (review : GroupedReview) (cache : Cache) : Score × Cache × ℕ :=
  if review.review_text.getD "" = "" then
    (Score.emptyReview, cache, 0)
  else
    let (v, c, n) :=
      score_review model oracle paper_abstract (review.review_text.getD "") true cache
    (Score.verdict v, c, n)

/-- The method `score_reviews_for_paper(paper_abstract, reviews)`: score each review in
order, threading the cache; also returns the total number of oracle
invocations. -/
def score_reviews_for_paper (model : String) (oracle : Oracle)
    (paper_abstract : String) :
    List GroupedReview → Cache → List Score × Cache × ℕ
  | [], cache => ([], cache, 0)
  | r :: rs, cache =>
    let (s, c1, n1) := scoreOne model oracle paper_abstract r cache
    let (ss, c2, n2) := score_reviews_for_paper model oracle paper_abstract rs c1
    (s :: ss, c2, n1 + n2)

/-- The fields of a `ReviewSubmission` synapse that `score_reviews_grouped`
reads and writes: the miner response (`paper_id`, `review_text`) and the
validator result fields written back for audit (`review_score`,
`final_score`). -/
structure Response where
  paper_id : Option String
  review_text : Option String
  review_score : Option Score := none
  final_score : Option ℝ := none

/-- One entry of `paper_metadata.json`: the keys read by the pipeline
(`abstract`, `title`), each possibly absent. -/
structure PaperInfo where
  abstract : Option String
  title : Option String
  deriving DecidableEq, Repr

/-- Metadata lookup `paper_metadata.get(paper_id)` defaulting to the empty dict. -/
def paperInfoOf (metadata : List (String × PaperInfo)) (pid : String) : PaperInfo :=
  ((metadata.find? (fun p => p.1 = pid)).map (·.2)).getD ⟨none, none⟩

/-- The context string passed as `paper_abstract` for a group:
`paper_info.get("abstract", "")`, and when that is falsy (absent or empty)
`paper_info.get("title", "Unknown paper")`. -/
def resolveContext (info : PaperInfo) : String :=
  let a := info.abstract.getD ""
  if a = "" then info.title.getD "Unknown paper" else a

/-- One step `reviews_by_paper.setdefault(pid, []).append(r)`: append to the group of
`pid`, creating it at the end in first-seen order (Python dict insertion
order). -/
def addToGroups (groups : List (String × List GroupedReview))
    (pid : String) (r : GroupedReview) : List (String × List GroupedReview) :=
  match groups with
  | [] => [(pid, [r])]
  | (k, rs) :: gs =>
    if k = pid then (k, rs ++ [r]) :: gs else (k, rs) :: addToGroups gs pid r

/-- One step of the grouping loop of `score_reviews_grouped`: a response
with `paper_id is None` is skipped, the rest are appended to their paper's
group as `{"miner_uid": i, "review_text": response.review_text}`. -/
def groupStep (gs : List (String × List GroupedReview)) (p : ℕ × Response) :
    List (String × List GroupedReview) :=
  match p.2.paper_id with
  | none => gs
  | some pid => addToGroups gs pid ⟨p.1, p.2.review_text⟩

/-- The grouping loop of `score_reviews_grouped` over the enumerated
responses. -/
def groupByPaper (responses : List Response) : List (String × List GroupedReview) :=
  responses.enum.foldl groupStep []

/-- The index sort `np.argsort(xs)[::-1]`: indices of `xs` sorted by value ascending, then
reversed, so the head indexes a maximal element.  The sort is modelled as a
stable sort (ties keep original index order before the reversal). -/
def argsortDesc (xs : List ℚ) : List ℕ :=
  (List.insertionSort (fun i j => xs.getD i 0 ≤ xs.getD j 0)
    (List.range xs.length)).reverse

/-- The reward formula `reward = base_score * np.exp(-0.5 * rank) * confidence`. -/
noncomputable def rewardOf (s : Score) (rank : ℕ) : ℝ :=
  (s.aggregate_score : ℝ) * Real.exp (-0.5 * (rank : ℝ)) * (s.confidence : ℝ)

/-- The body of `for rank, idx in enumerate(ranked_indices)`: for each
(rank, idx) pair the assignment triple
`(miner_uid, scores[idx], reward)` made by the loop — the reward is stored
in `all_rewards[miner_uid]` and the pair `(scores[idx], reward)` is written
back onto the synapse. -/
noncomputable def rankAndAssign (paper_reviews : List GroupedReview)
    (scores : List Score) : List (ℕ × Score × ℝ) :=
  (argsortDesc (scores.map Score.aggregate_score)).enum.map
    (fun p =>
      ((paper_reviews.getD p.2 ⟨0, none⟩).miner_uid,
        scores.getD p.2 Score.emptyReview,
        rewardOf (scores.getD p.2 Score.emptyReview) p.1))

/-- Apply one assignment triple: `all_rewards[miner_uid] = reward` and the
synapse write-back `review_score = scores[idx]`, `final_score = reward`. -/
noncomputable def applyAssign (st : List ℝ × List Response)
    (a : ℕ × Score × ℝ) : List ℝ × List Response :=
  (st.1.set a.1 a.2.2,
   st.2.set a.1
     { st.2.getD a.1 ⟨none, none, none, none⟩ with
       review_score := some a.2.1, final_score := some a.2.2 })

/-- The per-paper loop of `score_reviews_grouped`: resolve the context,
score the group's reviews (threading the cache), rank and build the
assignment triples; returns all triples in loop order together with the
final cache and total oracle-call count. -/
noncomputable def processGroups (model : String) (oracle : Oracle)
    (metadata : List (String × PaperInfo)) :
    List (String × List GroupedReview) → Cache → List (ℕ × Score × ℝ) × Cache × ℕ
  | [], cache => ([], cache, 0)
  | (pid, paper_reviews) :: gs, cache =>
    let ctx := resolveContext (paperInfoOf metadata pid)
    let (scores, c1, n1) := score_reviews_for_paper model oracle ctx paper_reviews cache
    let asgn := rankAndAssign paper_reviews scores
    let (rest, c2, n2) := processGroups model oracle metadata gs c1
    (asgn ++ rest, c2, n1 + n2)

/-- Everything of `score_reviews_grouped` before the normalization step:
the raw `all_rewards` vector (zeros overwritten by the assignments), the
mutated responses, the final cache and the oracle-call count. -/
noncomputable def pipelineCore (model : String) (oracle : Oracle)
    (metadata : List (String × PaperInfo)) (responses : List Response)
    (cache : Cache) : List ℝ × List Response × Cache × ℕ :=
  let (asgns, c, n) := processGroups model oracle metadata (groupByPaper responses) cache
  let (raw, resp) := asgns.foldl applyAssign (List.replicate responses.length 0, responses)
  (raw, resp, c, n)

/-- The reduction `np.ndarray.max()` on a 1-D float array: `none` on a zero-size array
(where numpy raises `ValueError`). -/
noncomputable def npMax : List ℝ → Option ℝ
  | [] => none
  | x :: xs => some (xs.foldl max x)

/-- The outcome of `score_reviews_grouped`: the returned pair
`(all_rewards, miner_uids)` plus the side effects (mutated responses,
cache, number of oracle invocations). -/
structure GroupedResult where
  rewards : List ℝ
  miner_uids : List ℕ
  responses : List Response
  cache : Cache
  oracleCalls : ℕ

/-- The entry point `score_reviews_grouped(validator, responses)`: group, score, rank,
assign rewards, then divide by the population maximum when it is positive.
`none` is the `ValueError` numpy raises when `all_rewards.max()` runs on a
zero-size array (empty `responses`). -/
noncomputable def score_reviews_grouped (model : String) (oracle : Oracle)
    (metadata : List (String × PaperInfo)) (responses : List Response)
    (cache : Cache) : Option GroupedResult :=
  let (raw, resp, c, n) := pipelineCore model oracle metadata responses cache
  match npMax raw with
  | none => none
  | some m =>
    some { rewards := if 0 < m then raw.map (· / m) else raw,
           miner_uids := List.range responses.length,
           responses := resp, cache := c, oracleCalls := n }

/-- Dict access to a verdict's criterion entry by criterion name. -/
def criterionValue (v : Verdict) : String → ℚ
  | "comprehension" => v.comprehension
  | "technical_depth" => v.technical_depth
  | "specificity" => v.specificity
  | "constructiveness" => v.constructiveness
  | "evidence_based" => v.evidence_based
  | "professionalism" => v.professionalism
  | _ => 0

/-- Well-formedness of the on-disk cache: every stored verdict has a
nonnegative aggregate and confidence.  Every verdict `_save_cache` ever
writes satisfies this (it went through the clamps of
`_validate_and_aggregate`), so the invariant only excludes hand-polluted
cache directories. -/
def CacheWF (cache : Cache) : Prop :=
  ∀ p ∈ cache, 0 ≤ p.2.aggregate_score ∧ 0 ≤ p.2.confidence

/-- All miner uids appearing in a grouping, in group order. -/
def groupUids (gs : List (String × List GroupedReview)) : List ℕ :=
  gs.bind (fun g => g.2.map (·.miner_uid))

/-- The indices of the responses that carry a `paper_id` (the submissions
that get grouped), in input order. -/
def uidsOf (l : List (ℕ × Response)) : List ℕ :=
  (l.filter (fun p => p.2.paper_id.isSome)).map (·.1)

/-! ### Concrete fixtures used to evaluate the definitions -/

/-- A raw oracle dict with an out-of-range criterion, an out-of-range
confidence and most criteria missing. -/
def exDict : List (String × PyVal) :=
  [("comprehension", .num 7), ("technical_depth", .num (-3)), ("confidence", .num 2)]

/-- The verdict `_validate_and_aggregate` produces on `exDict`. -/
def exVerdict : Verdict :=
  { comprehension := 5, technical_depth := 0, specificity := 0,
    constructiveness := 0, evidence_based := 0, professionalism := 0,
    justification := none, confidence := 1, aggregate_score := 20, error := none }

/-- A well-formed raw oracle dict scoring every criterion `5` with
confidence `1`. -/
def allFiveRaw : List (String × PyVal) :=
  [("comprehension", .num 5), ("technical_depth", .num 5), ("specificity", .num 5),
   ("constructiveness", .num 5), ("evidence_based", .num 5), ("professionalism", .num 5),
   ("justification", .str "excellent"), ("confidence", .num 1)]

/-- The verdict `_validate_and_aggregate` produces on `allFiveRaw`. -/
def allFiveVerdict : Verdict :=
  { comprehension := 5, technical_depth := 5, specificity := 5,
    constructiveness := 5, evidence_based := 5, professionalism := 5,
    justification := some (.str "excellent"), confidence := 1,
    aggregate_score := 100, error := none }

/-- An oracle stub that always answers with `allFiveRaw`. -/
def okOracle : Oracle := fun _ _ => .ok allFiveRaw

/-- An oracle stub whose call always raises. -/
def failOracle : Oracle := fun _ _ => .error "timeout"

theorem clampCriterion_cases {d : List (String × PyVal)} {c : String} {q : ℚ}
    (h : clampCriterion d c = some q) :
    (lookupField d c = none ∧ q = 0) ∨
      ∃ r, lookupField d c = some (.num r) ∧ q = max 0 (min 5 r) := by
  unfold clampCriterion at h
  cases hl : lookupField d c with
  | none => simp [hl] at h; exact .inl ⟨rfl, h.symm⟩
  | some w =>
    cases w with
    | num r => simp [hl, pyFloat] at h; exact .inr ⟨r, rfl, h.symm⟩
    | str s => simp [hl, pyFloat] at h
    | other => simp [hl, pyFloat] at h

theorem clampCriterion_bounds {d : List (String × PyVal)} {c : String} {q : ℚ}
    (h : clampCriterion d c = some q) : 0 ≤ q ∧ q ≤ 5 := by
  rcases clampCriterion_cases h with ⟨-, rfl⟩ | ⟨r, -, rfl⟩
  · exact ⟨le_refl 0, by norm_num⟩
  · refine ⟨le_max_left _ _, ?_⟩
    simp only [max_le_iff]
    exact ⟨by norm_num, le_trans (min_le_left _ _) (by norm_num)⟩

theorem clampConfidence_cases {d : List (String × PyVal)} {q : ℚ}
    (h : clampConfidence d = some q) :
    (lookupField d "confidence" = none ∧ q = 0.5) ∨
      ∃ r, lookupField d "confidence" = some (.num r) ∧ q = max 0 (min 1 r) := by
  unfold clampConfidence at h
  cases hl : lookupField d "confidence" with
  | none => simp [hl] at h; exact .inl ⟨rfl, h.symm⟩
  | some w =>
    cases w with
    | num r => simp [hl, pyFloat] at h; exact .inr ⟨r, rfl, h.symm⟩
    | str s => simp [hl, pyFloat] at h
    | other => simp [hl, pyFloat] at h

theorem clampConfidence_bounds {d : List (String × PyVal)} {q : ℚ}
    (h : clampConfidence d = some q) : 0 ≤ q ∧ q ≤ 1 := by
  rcases clampConfidence_cases h with ⟨-, rfl⟩ | ⟨r, -, rfl⟩
  · norm_num
  · refine ⟨le_max_left _ _, ?_⟩
    simp only [max_le_iff]
    exact ⟨by norm_num, le_trans (min_le_left _ _) (by norm_num)⟩

/-- Shape of a successful `_validate_and_aggregate` run: each field comes
from its clamp pass and the aggregate is the unrolled weighted sum. -/
theorem validate_and_aggregate_eq_some {d : List (String × PyVal)} {v : Verdict} :
    validate_and_aggregate d = some v ↔
      ∃ comp tech spec cons evid prof conf,
        clampCriterion d "comprehension" = some comp ∧
        clampCriterion d "technical_depth" = some tech ∧
        clampCriterion d "specificity" = some spec ∧
        clampCriterion d "constructiveness" = some cons ∧
        clampCriterion d "evidence_based" = some evid ∧
        clampCriterion d "professionalism" = some prof ∧
        clampConfidence d = some conf ∧
        v = { comprehension := comp, technical_depth := tech, specificity := spec,
              constructiveness := cons, evidence_based := evid, professionalism := prof,
              justification := lookupField d "justification",
              confidence := conf,
              aggregate_score :=
                comp * CRITERIA_WEIGHTS "comprehension" * 20
                + tech * CRITERIA_WEIGHTS "technical_depth" * 20
                + spec * CRITERIA_WEIGHTS "specificity" * 20
                + cons * CRITERIA_WEIGHTS "constructiveness" * 20
                + evid * CRITERIA_WEIGHTS "evidence_based" * 20
                + prof * CRITERIA_WEIGHTS "professionalism" * 20,
              error := lookupField d "error" } := by
  constructor
  · intro h
    unfold validate_and_aggregate at h
    cases h1 : clampCriterion d "comprehension" with
    | none => rw [h1] at h; simp at h
    | some comp =>
    cases h2 : clampCriterion d "technical_depth" with
    | none => rw [h1, h2] at h; simp at h
    | some tech =>
    cases h3 : clampCriterion d "specificity" with
    | none => rw [h1, h2, h3] at h; simp at h
    | some spec =>
    cases h4 : clampCriterion d "constructiveness" with
    | none => rw [h1, h2, h3, h4] at h; simp at h
    | some cons =>
    cases h5 : clampCriterion d "evidence_based" with
    | none => rw [h1, h2, h3, h4, h5] at h; simp at h
    | some evid =>
    cases h6 : clampCriterion d "professionalism" with
    | none => rw [h1, h2, h3, h4, h5, h6] at h; simp at h
    | some prof =>
    cases h7 : clampConfidence d with
    | none => rw [h1, h2, h3, h4, h5, h6, h7] at h; simp at h
    | some conf =>
      rw [h1, h2, h3, h4, h5, h6, h7] at h
      exact ⟨comp, tech, spec, cons, evid, prof, conf, rfl, rfl, rfl, rfl, rfl, rfl, rfl,
        (Option.some.inj h).symm⟩
  · rintro ⟨comp, tech, spec, cons, evid, prof, conf, h1, h2, h3, h4, h5, h6, h7, rfl⟩
    unfold validate_and_aggregate
    rw [h1, h2, h3, h4, h5, h6, h7]
    rfl

/-- Aggregate-score and confidence bounds of every verdict the aggregator
produces (the weighted sum of values in `[0,5]` scaled by `20` lies in
`[0,100]`). -/
theorem validate_verdict_bounds {d : List (String × PyVal)} {v : Verdict}
    (h : validate_and_aggregate d = some v) :
    0 ≤ v.aggregate_score ∧ v.aggregate_score ≤ 100 ∧
      0 ≤ v.confidence ∧ v.confidence ≤ 1 := by
  rw [validate_and_aggregate_eq_some] at h
  obtain ⟨comp, tech, spec, cons, evid, prof, conf, h1, h2, h3, h4, h5, h6, h7, rfl⟩ := h
  obtain ⟨hc1, hc1'⟩ := clampCriterion_bounds h1
  obtain ⟨hc2, hc2'⟩ := clampCriterion_bounds h2
  obtain ⟨hc3, hc3'⟩ := clampCriterion_bounds h3
  obtain ⟨hc4, hc4'⟩ := clampCriterion_bounds h4
  obtain ⟨hc5, hc5'⟩ := clampCriterion_bounds h5
  obtain ⟨hc6, hc6'⟩ := clampCriterion_bounds h6
  obtain ⟨hco, hco'⟩ := clampConfidence_bounds h7
  refine ⟨?_, ?_, hco, hco'⟩ <;>
    · simp only [CRITERIA_WEIGHTS]
      norm_num
      linarith

theorem clampCriterion_of_none {d : List (String × PyVal)} {c : String} {q : ℚ}
    (hl : lookupField d c = none) (h : clampCriterion d c = some q) : q = 0 := by
  unfold clampCriterion at h
  rw [hl] at h
  exact (Option.some.inj h).symm

theorem clampCriterion_of_num {d : List (String × PyVal)} {c : String} {q r : ℚ}
    (hl : lookupField d c = some (.num r)) (h : clampCriterion d c = some q) :
    q = max 0 (min 5 r) := by
  unfold clampCriterion at h
  rw [hl] at h
  exact (Option.some.inj h).symm

theorem clampCriterion_isSome {d : List (String × PyVal)} {c : String}
    (h : ∀ w, lookupField d c = some w → ∃ q, w = .num q) :
    ∃ q, clampCriterion d c = some q := by
  unfold clampCriterion
  cases hl : lookupField d c with
  | none => exact ⟨0, rfl⟩
  | some w =>
    obtain ⟨q, rfl⟩ := h w hl
    exact ⟨max 0 (min 5 q), rfl⟩

theorem clampConfidence_isSome {d : List (String × PyVal)}
    (h : ∀ w, lookupField d "confidence" = some w → ∃ q, w = .num q) :
    ∃ q, clampConfidence d = some q := by
  unfold clampConfidence
  cases hl : lookupField d "confidence" with
  | none => exact ⟨0.5, rfl⟩
  | some w =>
    obtain ⟨q, rfl⟩ := h w hl
    exact ⟨max 0 (min 1 q), rfl⟩

theorem validate_exDict : validate_and_aggregate exDict = some exVerdict := by
  simp [validate_and_aggregate, clampCriterion, clampConfidence, lookupField, pyFloat,
    exDict, exVerdict, CRITERIA_WEIGHTS, List.find?]
  norm_num

theorem validate_allFiveRaw : validate_and_aggregate allFiveRaw = some allFiveVerdict := by
  simp [validate_and_aggregate, clampCriterion, clampConfidence, lookupField, pyFloat,
    allFiveRaw, allFiveVerdict, CRITERIA_WEIGHTS, List.find?]
  norm_num

/-- Indexwise form of the empty-text short-circuit inside
`score_reviews_for_paper`. -/
theorem scores_get?_of_empty (model : String) (oracle : Oracle) (a : String) :
    ∀ (reviews : List GroupedReview) (cache : Cache) (i : ℕ) (rv : GroupedReview),
      reviews.get? i = some rv → rv.review_text.getD "" = "" →
      (score_reviews_for_paper model oracle a reviews cache).1.get? i
        = some Score.emptyReview
  | [], _, i, _, hi, _ => by simp at hi
  | r :: rs, cache, 0, rv, hi, hempty => by
    have hr : r = rv := by simpa using hi
    subst hr
    simp [score_reviews_for_paper, scoreOne, hempty]
  | r :: rs, cache, j + 1, rv, hi, hempty => by
    have hj : rs.get? j = some rv := by simpa using hi
    rcases hso : scoreOne model oracle a r cache with ⟨s, c1, n1⟩
    have hrec := scores_get?_of_empty model oracle a rs c1 j rv hj hempty
    simpa [score_reviews_for_paper, hso] using hrec

theorem foldl_applyAssign_lengths :
    ∀ (asgns : List (ℕ × Score × ℝ)) (st : List ℝ × List Response),
      (asgns.foldl applyAssign st).1.length = st.1.length ∧
      (asgns.foldl applyAssign st).2.length = st.2.length
  | [], _ => ⟨rfl, rfl⟩
  | a :: as, st => by
    have h := foldl_applyAssign_lengths as (applyAssign st a)
    simpa [applyAssign, List.length_set] using h

theorem pipelineCore_lengths (model : String) (oracle : Oracle)
    (metadata : List (String × PaperInfo)) (responses : List Response)
    (cache : Cache) :
    (pipelineCore model oracle metadata responses cache).1.length = responses.length ∧
    (pipelineCore model oracle metadata responses cache).2.1.length = responses.length := by
  unfold pipelineCore
  rcases hp : processGroups model oracle metadata (groupByPaper responses) cache
    with ⟨asgns, c, n⟩
  have h := foldl_applyAssign_lengths asgns (List.replicate responses.length 0, responses)
  rcases hf : asgns.foldl applyAssign (List.replicate responses.length 0, responses)
    with ⟨raw, resp⟩
  rw [hf] at h
  refine ⟨?_, ?_⟩
  · simpa [hf] using h.1
  · simpa [hf] using h.2

theorem npMax_isSome_of_ne_nil {l : List ℝ} (h : l ≠ []) : ∃ m, npMax l = some m := by
  cases l with
  | nil => exact absurd rfl h
  | cons x xs => exact ⟨xs.foldl max x, rfl⟩

theorem score_reviews_grouped_isSome (model : String) (oracle : Oracle)
    (metadata : List (String × PaperInfo)) (responses : List Response)
    (cache : Cache) (h : responses ≠ []) :
    (score_reviews_grouped model oracle metadata responses cache).isSome = true := by
  unfold score_reviews_grouped
  rcases hp : pipelineCore model oracle metadata responses cache with ⟨raw, resp, c, n⟩
  have hlen : raw.length = responses.length := by
    have hl := (pipelineCore_lengths model oracle metadata responses cache).1
    rw [hp] at hl
    exact hl
  have hraw : raw ≠ [] := by
    intro hnil
    rw [hnil] at hlen
    exact h (List.length_eq_zero.mp hlen.symm)
  obtain ⟨m, hm⟩ := npMax_isSome_of_ne_nil hraw
  simp [hm]

theorem get_cached_mem {cache : Cache} {key : String} {v : Verdict}
    (h : get_cached cache key = some v) : ∃ k, (k, v) ∈ cache := by
  unfold get_cached at h
  obtain ⟨kv, hfind, hv⟩ := Option.map_eq_some'.mp h
  exact ⟨kv.1, by simpa [← hv] using List.mem_of_find?_eq_some hfind⟩

theorem score_review_wf (model : String) (oracle : Oracle) (a r : String)
    (uc : Bool) (cache : Cache) (hwf : CacheWF cache) :
    CacheWF (score_review model oracle a r uc cache).2.1 ∧
    0 ≤ (score_review model oracle a r uc cache).1.aggregate_score ∧
    0 ≤ (score_review model oracle a r uc cache).1.confidence := by
  unfold score_review
  split
  · rename_i v hget
    have hv : get_cached cache (cache_key model a r) = some v := by
      cases uc with
      | false => simp at hget
      | true => simpa using hget
    obtain ⟨k, hmem⟩ := get_cached_mem hv
    exact ⟨hwf, (hwf _ hmem).1, (hwf _ hmem).2⟩
  · split
    · exact ⟨hwf, le_refl 0, le_refl 0⟩
    · split
      · exact ⟨hwf, le_refl 0, le_refl 0⟩
      · rename_i raw hok v hval
        have hb := validate_verdict_bounds hval
        refine ⟨?_, hb.1, hb.2.2.1⟩
        cases uc with
        | false => exact hwf
        | true =>
          intro p hp
          rcases List.mem_cons.mp hp with rfl | hp'
          · exact ⟨hb.1, hb.2.2.1⟩
          · exact hwf _ hp'

theorem scoreOne_wf (model : String) (oracle : Oracle) (a : String)
    (rv : GroupedReview) (cache : Cache) (hwf : CacheWF cache) :
    CacheWF (scoreOne model oracle a rv cache).2.1 ∧
    0 ≤ (scoreOne model oracle a rv cache).1.aggregate_score ∧
    0 ≤ (scoreOne model oracle a rv cache).1.confidence := by
  unfold scoreOne
  split
  · exact ⟨hwf, le_refl 0, le_refl 0⟩
  · rcases h : score_review model oracle a (rv.review_text.getD "") true cache
      with ⟨v, c, n⟩
    have hs := score_review_wf model oracle a (rv.review_text.getD "") true cache hwf
    rw [h] at hs
    exact ⟨hs.1, hs.2.1, hs.2.2⟩

theorem score_reviews_for_paper_wf (model : String) (oracle : Oracle) (a : String) :
    ∀ (reviews : List GroupedReview) (cache : Cache), CacheWF cache →
      (∀ s ∈ (score_reviews_for_paper model oracle a reviews cache).1,
        0 ≤ s.aggregate_score ∧ 0 ≤ s.confidence) ∧
      CacheWF (score_reviews_for_paper model oracle a reviews cache).2.1
  | [], cache, hwf => ⟨by simp [score_reviews_for_paper], hwf⟩
  | r :: rs, cache, hwf => by
    have h1 := scoreOne_wf model oracle a r cache hwf
    rcases hso : scoreOne model oracle a r cache with ⟨s, c1, n1⟩
    rw [hso] at h1
    have h2 := score_reviews_for_paper_wf model oracle a rs c1 h1.1
    rcases hrest : score_reviews_for_paper model oracle a rs c1 with ⟨ss, c2, n2⟩
    rw [hrest] at h2
    constructor
    · intro s' hs'
      simp only [score_reviews_for_paper, hso, hrest] at hs'
      rcases List.mem_cons.mp hs' with rfl | hs''
      · exact ⟨h1.2.1, h1.2.2⟩
      · exact h2.1 s' hs''
    · simpa [score_reviews_for_paper, hso, hrest] using h2.2

theorem score_reviews_for_paper_length (model : String) (oracle : Oracle) (a : String) :
    ∀ (reviews : List GroupedReview) (cache : Cache),
      (score_reviews_for_paper model oracle a reviews cache).1.length = reviews.length
  | [], _ => rfl
  | r :: rs, cache => by
    rcases hso : scoreOne model oracle a r cache with ⟨s, c1, n1⟩
    have := score_reviews_for_paper_length model oracle a rs c1
    simp [score_reviews_for_paper, hso, this]

theorem rewardOf_nonneg {s : Score} (hs : 0 ≤ s.aggregate_score)
    (hc : 0 ≤ s.confidence) (k : ℕ) : 0 ≤ rewardOf s k := by
  unfold rewardOf
  have h1 : (0 : ℝ) ≤ (s.aggregate_score : ℝ) := by exact_mod_cast hs
  have h2 : (0 : ℝ) ≤ (s.confidence : ℝ) := by exact_mod_cast hc
  exact mul_nonneg (mul_nonneg h1 (Real.exp_pos _).le) h2

theorem rankAndAssign_reward_nonneg {group : List GroupedReview} {scores : List Score}
    (h : ∀ s ∈ scores, 0 ≤ s.aggregate_score ∧ 0 ≤ s.confidence) :
    ∀ a ∈ rankAndAssign group scores, 0 ≤ a.2.2 := by
  intro a ha
  unfold rankAndAssign at ha
  obtain ⟨p, hp, rfl⟩ := List.mem_map.mp ha
  have hscore : 0 ≤ (scores.getD p.2 Score.emptyReview).aggregate_score ∧
      0 ≤ (scores.getD p.2 Score.emptyReview).confidence := by
    rw [List.getD_eq_getElem?_getD]
    cases hg : scores[p.2]? with
    | none => exact ⟨le_refl 0, le_refl 0⟩
    | some s => exact (by simpa [hg] using h s (List.getElem?_mem hg) : _)
  exact rewardOf_nonneg hscore.1 hscore.2 p.1

theorem processGroups_wf (model : String) (oracle : Oracle)
    (metadata : List (String × PaperInfo)) :
    ∀ (gs : List (String × List GroupedReview)) (cache : Cache), CacheWF cache →
      (∀ a ∈ (processGroups model oracle metadata gs cache).1, 0 ≤ a.2.2) ∧
      CacheWF (processGroups model oracle metadata gs cache).2.1
  | [], cache, hwf => ⟨by simp [processGroups], hwf⟩
  | (pid, paper_reviews) :: rest, cache, hwf => by
    have h1 := score_reviews_for_paper_wf model oracle
      (resolveContext (paperInfoOf metadata pid)) paper_reviews cache hwf
    rcases hsc : score_reviews_for_paper model oracle
        (resolveContext (paperInfoOf metadata pid)) paper_reviews cache
      with ⟨scores, c1, n1⟩
    rw [hsc] at h1
    have h2 := processGroups_wf model oracle metadata rest c1 h1.2
    rcases hrest : processGroups model oracle metadata rest c1 with ⟨asgns, c2, n2⟩
    rw [hrest] at h2
    constructor
    · intro a ha
      simp only [processGroups, hsc, hrest] at ha
      rcases List.mem_append.mp ha with h | h
      · exact rankAndAssign_reward_nonneg h1.1 a h
      · exact h2.1 a h
    · simpa [processGroups, hsc, hrest] using h2.2

theorem mem_foldl_applyAssign_raw :
    ∀ (asgns : List (ℕ × Score × ℝ)) (st : List ℝ × List Response) (x : ℝ),
      x ∈ (asgns.foldl applyAssign st).1 → x ∈ st.1 ∨ ∃ a ∈ asgns, x = a.2.2
  | [], _, _, hx => .inl hx
  | a :: as, st, x, hx => by
    rcases mem_foldl_applyAssign_raw as (applyAssign st a) x hx with h | ⟨b, hb, rfl⟩
    · rcases List.mem_or_eq_of_mem_set h with h' | rfl
      · exact .inl h'
      · exact .inr ⟨a, List.mem_cons_self _ _, rfl⟩
    · exact .inr ⟨b, List.mem_cons_of_mem _ hb, rfl⟩

theorem pipelineCore_raw_nonneg (model : String) (oracle : Oracle)
    (metadata : List (String × PaperInfo)) (responses : List Response)
    (cache : Cache) (hwf : CacheWF cache) :
    ∀ x ∈ (pipelineCore model oracle metadata responses cache).1, 0 ≤ x := by
  intro x hx
  unfold pipelineCore at hx
  have hnn := (processGroups_wf model oracle metadata (groupByPaper responses)
    cache hwf).1
  rcases hp : processGroups model oracle metadata (groupByPaper responses) cache
    with ⟨asgns, c, n⟩
  rw [hp] at hnn hx
  rcases hf : asgns.foldl applyAssign (List.replicate responses.length 0, responses)
    with ⟨raw, resp⟩
  have hx' : x ∈ raw := by simpa [hf] using hx
  have := mem_foldl_applyAssign_raw asgns
    (List.replicate responses.length 0, responses) x (by rw [hf]; exact hx')
  rcases this with h | ⟨a, ha, rfl⟩
  · rw [List.eq_of_mem_replicate h]
  · exact hnn a ha

theorem foldl_max_spec :
    ∀ (xs : List ℝ) (x : ℝ),
      (xs.foldl max x = x ∨ xs.foldl max x ∈ xs) ∧
      x ≤ xs.foldl max x ∧ ∀ y ∈ xs, y ≤ xs.foldl max x
  | [], x => ⟨.inl rfl, le_refl x, by simp⟩
  | y :: ys, x => by
    have ih := foldl_max_spec ys (max x y)
    refine ⟨?_, ?_, ?_⟩
    · rcases ih.1 with h | h
      · rcases max_choice x y with hm | hm
        · exact .inl (by simpa [hm] using h)
        · exact .inr (by simp [List.foldl_cons]; rw [h, hm]; simp)
      · exact .inr (by simp [List.foldl_cons]; right; exact h)
    · exact le_trans (le_max_left x y) ih.2.1
    · intro z hz
      rcases List.mem_cons.mp hz with rfl | hz'
      · exact le_trans (le_max_right x z) ih.2.1
      · exact ih.2.2 z hz'

theorem npMax_mem {l : List ℝ} {m : ℝ} (h : npMax l = some m) : m ∈ l := by
  cases l with
  | nil => simp [npMax] at h
  | cons x xs =>
    have hm : xs.foldl max x = m := Option.some.inj h
    rcases (foldl_max_spec xs x).1 with h' | h'
    · rw [← hm, h']; exact List.mem_cons_self _ _
    · rw [← hm]; exact List.mem_cons_of_mem _ h'

theorem npMax_is_ub {l : List ℝ} {m : ℝ} (h : npMax l = some m) :
    ∀ x ∈ l, x ≤ m := by
  cases l with
  | nil => simp [npMax] at h
  | cons x xs =>
    have hm : xs.foldl max x = m := Option.some.inj h
    intro z hz
    rcases List.mem_cons.mp hz with rfl | hz'
    · rw [← hm]; exact (foldl_max_spec xs z).2.1
    · rw [← hm]; exact (foldl_max_spec xs x).2.2 z hz'

theorem npMax_eq_some {l : List ℝ} {a : ℝ} (h1 : a ∈ l) (h2 : ∀ x ∈ l, x ≤ a) :
    npMax l = some a := by
  cases l with
  | nil => simp at h1
  | cons x xs =>
    have hmem := npMax_mem (l := x :: xs) (m := xs.foldl max x) rfl
    have hub := npMax_is_ub (l := x :: xs) (m := xs.foldl max x) rfl
    have : xs.foldl max x = a := le_antisymm (h2 _ hmem) (hub a h1)
    simp [npMax, this]

theorem eval_score_review_ok : score_review "m" okOracle "Unknown paper" "rev" true []
    = (allFiveVerdict, [(cache_key "m" "Unknown paper" "rev", allFiveVerdict)], 1) := by
  simp [score_review, get_cached, okOracle, validate_allFiveRaw, save_cache]

theorem eval_scoreOne_ok : scoreOne "m" okOracle "Unknown paper" ⟨0, some "rev"⟩ []
    = (Score.verdict allFiveVerdict,
       [(cache_key "m" "Unknown paper" "rev", allFiveVerdict)], 1) := by
  simp [scoreOne, eval_score_review_ok]

theorem eval_sfp_ok : score_reviews_for_paper "m" okOracle "Unknown paper" [⟨0, some "rev"⟩] []
    = ([Score.verdict allFiveVerdict],
       [(cache_key "m" "Unknown paper" "rev", allFiveVerdict)], 1) := by
  simp [score_reviews_for_paper, eval_scoreOne_ok]

theorem eval_rewardOf_allFive : rewardOf (Score.verdict allFiveVerdict) 0 = 100 := by
  simp [rewardOf, Score.aggregate_score, Score.confidence, allFiveVerdict]

theorem eval_processGroups_ok : processGroups "m" okOracle [] [("p", [⟨0, some "rev"⟩])] []
    = ([(0, Score.verdict allFiveVerdict, rewardOf (Score.verdict allFiveVerdict) 0)],
       [(cache_key "m" "Unknown paper" "rev", allFiveVerdict)], 1) := by
  simp [processGroups, resolveContext, paperInfoOf, eval_sfp_ok, rankAndAssign, argsortDesc,
    List.insertionSort, List.enum, List.enumFrom, Score.aggregate_score, List.range_succ]

theorem eval_pipelineCore_ok :
    pipelineCore "m" okOracle [] [⟨some "p", some "rev", none, none⟩] []
    = ([100], [⟨some "p", some "rev", some (Score.verdict allFiveVerdict), some 100⟩],
       [(cache_key "m" "Unknown paper" "rev", allFiveVerdict)], 1) := by
  simp [pipelineCore, groupByPaper, groupStep, List.enum, List.enumFrom, addToGroups,
    eval_processGroups_ok, applyAssign, eval_rewardOf_allFive, List.set]

theorem argsortDesc_perm (xs : List ℚ) :
    List.Perm (argsortDesc xs) (List.range xs.length) :=
  (List.reverse_perm _).trans (List.perm_insertionSort _ _)

theorem groupUids_cons (k : String) (rs : List GroupedReview)
    (gs : List (String × List GroupedReview)) :
    groupUids ((k, rs) :: gs) = rs.map (·.miner_uid) ++ groupUids gs := by
  simp [groupUids]

theorem groupUids_addToGroups (gs : List (String × List GroupedReview))
    (pid : String) (r : GroupedReview) :
    List.Perm (groupUids (addToGroups gs pid r)) (r.miner_uid :: groupUids gs) := by
  induction gs with
  | nil => simp [addToGroups, groupUids]
  | cons g gs ih =>
    rcases g with ⟨k, rs⟩
    by_cases hk : k = pid
    · rw [show addToGroups ((k, rs) :: gs) pid r = (k, rs ++ [r]) :: gs by
        simp [addToGroups, hk]]
      rw [groupUids_cons, groupUids_cons, List.map_append]
      simpa using List.perm_middle
    · rw [show addToGroups ((k, rs) :: gs) pid r = (k, rs) :: addToGroups gs pid r by
        simp [addToGroups, hk]]
      rw [groupUids_cons, groupUids_cons]
      exact ((ih.append_left (rs.map (·.miner_uid)))).trans List.perm_middle

theorem groupUids_foldl_groupStep :
    ∀ (l : List (ℕ × Response)) (gs : List (String × List GroupedReview)),
      List.Perm (groupUids (l.foldl groupStep gs)) (groupUids gs ++ uidsOf l)
  | [], gs => by simp [uidsOf]
  | p :: l, gs => by
    cases hp : p.2.paper_id with
    | none =>
      have ih := groupUids_foldl_groupStep l gs
      have h1 : groupStep gs p = gs := by simp [groupStep, hp]
      have h2 : uidsOf (p :: l) = uidsOf l := by
        simp [uidsOf, List.filter_cons, hp]
      simpa [List.foldl_cons, h1, h2] using ih
    | some pid =>
      have ih := groupUids_foldl_groupStep l (addToGroups gs pid ⟨p.1, p.2.review_text⟩)
      have h1 : groupStep gs p = addToGroups gs pid ⟨p.1, p.2.review_text⟩ := by
        simp [groupStep, hp]
      have h2 : uidsOf (p :: l) = p.1 :: uidsOf l := by
        simp [uidsOf, List.filter_cons, hp]
      rw [List.foldl_cons, h1, h2]
      refine ih.trans ?_
      refine ((groupUids_addToGroups gs pid ⟨p.1, p.2.review_text⟩).append_right
        (uidsOf l)).trans ?_
      simpa using List.perm_middle.symm

theorem groupUids_groupByPaper (responses : List Response) :
    List.Perm (groupUids (groupByPaper responses)) (uidsOf responses.enum) := by
  simpa [groupByPaper, groupUids] using groupUids_foldl_groupStep responses.enum []

theorem uidsOf_enum_sublist (responses : List Response) :
    (uidsOf responses.enum).Sublist (List.range responses.length) := by
  have h1 : (responses.enum.filter (fun p => p.2.paper_id.isSome)).Sublist responses.enum :=
    List.filter_sublist _
  have h2 := h1.map Prod.fst
  rw [List.enum_map_fst] at h2
  simpa [uidsOf] using h2

theorem uidsOf_enum_nodup (responses : List Response) :
    (uidsOf responses.enum).Nodup :=
  (List.nodup_range _).sublist (uidsOf_enum_sublist responses)

theorem uidsOf_enum_lt (responses : List Response) :
    ∀ u ∈ uidsOf responses.enum, u < responses.length := fun u hu =>
  List.mem_range.mp ((uidsOf_enum_sublist responses).subset hu)

theorem map_getD_range {α : Type} : ∀ (l : List α) (d : α),
    (List.range l.length).map (fun i => l.getD i d) = l
  | [], _ => rfl
  | a :: l, d => by
    rw [List.length_cons, List.range_succ_eq_map]
    simp only [List.map_cons, List.map_map]
    have hc : ((fun i => (a :: l).getD i d) ∘ (· + 1)) = (fun i => l.getD i d) := by
      funext i
      simp [List.getD]
    rw [hc, map_getD_range l d]
    simp [List.getD]

theorem rankAndAssign_uids_perm {group : List GroupedReview} {scores : List Score}
    (hlen : scores.length = group.length) :
    List.Perm ((rankAndAssign group scores).map (·.1)) (group.map (·.miner_uid)) := by
  unfold rankAndAssign
  rw [List.map_map]
  have henum : (argsortDesc (scores.map Score.aggregate_score)).enum.map
      ((·.1) ∘ (fun p : ℕ × ℕ =>
        ((group.getD p.2 ⟨0, none⟩).miner_uid, scores.getD p.2 Score.emptyReview,
          rewardOf (scores.getD p.2 Score.emptyReview) p.1)))
      = (argsortDesc (scores.map Score.aggregate_score)).map
          (fun idx => (group.getD idx ⟨0, none⟩).miner_uid) := by
    rw [show ((·.1) ∘ (fun p : ℕ × ℕ =>
        ((group.getD p.2 ⟨0, none⟩).miner_uid, scores.getD p.2 Score.emptyReview,
          rewardOf (scores.getD p.2 Score.emptyReview) p.1)))
      = ((fun idx => (group.getD idx ⟨0, none⟩).miner_uid) ∘ Prod.snd) from rfl]
    rw [← List.map_map, List.enum_map_snd]
  rw [henum]
  have hperm : List.Perm (argsortDesc (scores.map Score.aggregate_score))
      (List.range group.length) := by
    have h := argsortDesc_perm (scores.map Score.aggregate_score)
    rwa [List.length_map, hlen] at h
  refine (hperm.map _).trans ?_
  rw [show (fun idx => (group.getD idx ⟨0, none⟩).miner_uid)
      = ((·.miner_uid) ∘ (fun idx => group.getD idx ⟨0, none⟩)) from rfl]
  rw [← List.map_map, map_getD_range group ⟨0, none⟩]

theorem processGroups_uids_perm (model : String) (oracle : Oracle)
    (metadata : List (String × PaperInfo)) :
    ∀ (gs : List (String × List GroupedReview)) (cache : Cache),
      List.Perm ((processGroups model oracle metadata gs cache).1.map (·.1))
        (groupUids gs)
  | [], _ => by simp [processGroups, groupUids]
  | (pid, paper_reviews) :: rest, cache => by
    rcases hsc : score_reviews_for_paper model oracle
        (resolveContext (paperInfoOf metadata pid)) paper_reviews cache
      with ⟨scores, c1, n1⟩
    have hlen : scores.length = paper_reviews.length := by
      have h := score_reviews_for_paper_length model oracle
        (resolveContext (paperInfoOf metadata pid)) paper_reviews cache
      rw [hsc] at h
      exact h
    have ih := processGroups_uids_perm model oracle metadata rest c1
    rcases hrest : processGroups model oracle metadata rest c1 with ⟨asgns, c2, n2⟩
    rw [hrest] at ih
    have : (processGroups model oracle metadata ((pid, paper_reviews) :: rest) cache).1
        = rankAndAssign paper_reviews scores ++ asgns := by
      simp [processGroups, hsc, hrest]
    rw [this, List.map_append, groupUids_cons]
    exact (rankAndAssign_uids_perm hlen).append ih

theorem foldl_applyAssign_untouched :
    ∀ (asgns : List (ℕ × Score × ℝ)) (st : List ℝ × List Response) (u : ℕ),
      u ∉ asgns.map (·.1) →
      (asgns.foldl applyAssign st).1[u]? = st.1[u]? ∧
      (asgns.foldl applyAssign st).2[u]? = st.2[u]?
  | [], _, _, _ => ⟨rfl, rfl⟩
  | a :: as, st, u, hu => by
    simp only [List.map_cons, List.mem_cons, not_or] at hu
    have ih := foldl_applyAssign_untouched as (applyAssign st a) u hu.2
    rw [List.foldl_cons]
    have hne : a.1 ≠ u := fun h => hu.1 h.symm
    constructor
    · rw [ih.1]
      simp only [applyAssign]
      exact List.getElem?_set_ne hne
    · rw [ih.2]
      simp only [applyAssign]
      exact List.getElem?_set_ne hne

theorem foldl_applyAssign_spec :
    ∀ (asgns : List (ℕ × Score × ℝ)) (st : List ℝ × List Response),
      (∀ b ∈ asgns, b.1 < st.2.length) → st.1.length = st.2.length →
      (asgns.map (·.1)).Nodup →
      ∀ a ∈ asgns,
        (asgns.foldl applyAssign st).1[a.1]? = some a.2.2 ∧
        (asgns.foldl applyAssign st).2[a.1]?
          = some { st.2.getD a.1 ⟨none, none, none, none⟩ with
                   review_score := some a.2.1, final_score := some a.2.2 }
  | [], _, _, _, _, a, ha => absurd ha (List.not_mem_nil a)
  | b :: bs, st, hb, hlen, hnd, a, ha => by
    simp only [List.map_cons, List.nodup_cons] at hnd
    rw [List.foldl_cons]
    rcases List.mem_cons.mp ha with rfl | ha'
    · have hunt := foldl_applyAssign_untouched bs (applyAssign st a) a.1 hnd.1
      have h2lt : a.1 < st.2.length := hb a (List.mem_cons_self _ _)
      have h1lt : a.1 < st.1.length := by rw [hlen]; exact h2lt
      constructor
      · rw [hunt.1]
        simp only [applyAssign]
        exact List.getElem?_set_eq_of_lt _ h1lt
      · rw [hunt.2]
        simp only [applyAssign]
        exact List.getElem?_set_eq_of_lt _ h2lt
    · have hbs : ∀ c ∈ bs, c.1 < (applyAssign st b).2.length := by
        intro c hc
        simpa [applyAssign, List.length_set] using hb c (List.mem_cons_of_mem _ hc)
      have hlen' : (applyAssign st b).1.length = (applyAssign st b).2.length := by
        simpa [applyAssign, List.length_set] using hlen
      have ih := foldl_applyAssign_spec bs (applyAssign st b) hbs hlen' hnd.2 a ha'
      have hane : b.1 ≠ a.1 := fun h => hnd.1 (h ▸ List.mem_map_of_mem (·.1) ha')
      refine ⟨ih.1, ?_⟩
      rw [ih.2]
      have hgd : (applyAssign st b).2.getD a.1 ⟨none, none, none, none⟩
          = st.2.getD a.1 ⟨none, none, none, none⟩ := by
        simp only [applyAssign, List.getD_eq_getElem?_getD]
        rw [List.getElem?_set_ne hane]
      rw [hgd]

theorem pipelineCore_components (model : String) (oracle : Oracle)
    (metadata : List (String × PaperInfo)) (responses : List Response)
    (cache : Cache) :
    (pipelineCore model oracle metadata responses cache).1
      = ((processGroups model oracle metadata (groupByPaper responses) cache).1.foldl
          applyAssign (List.replicate responses.length 0, responses)).1 ∧
    (pipelineCore model oracle metadata responses cache).2.1
      = ((processGroups model oracle metadata (groupByPaper responses) cache).1.foldl
          applyAssign (List.replicate responses.length 0, responses)).2 := by
  unfold pipelineCore
  rcases hp : processGroups model oracle metadata (groupByPaper responses) cache
    with ⟨asgns, c, n⟩
  rcases hf : asgns.foldl applyAssign (List.replicate responses.length 0, responses)
    with ⟨raw, resp⟩
  simp [hp, hf]

theorem score_reviews_grouped_some_parts {model : String} {oracle : Oracle}
    {metadata : List (String × PaperInfo)} {responses : List Response}
    {cache : Cache} {res : GroupedResult}
    (hres : score_reviews_grouped model oracle metadata responses cache = some res) :
    ∃ m, npMax (pipelineCore model oracle metadata responses cache).1 = some m ∧
      res.rewards
        = (if 0 < m then
            (pipelineCore model oracle metadata responses cache).1.map (· / m)
           else (pipelineCore model oracle metadata responses cache).1) ∧
      res.responses = (pipelineCore model oracle metadata responses cache).2.1 := by
  unfold score_reviews_grouped at hres
  rcases hp : pipelineCore model oracle metadata responses cache with ⟨raw, resp, c, n⟩
  simp only [hp] at hres ⊢
  cases hm : npMax raw with
  | none => rw [hm] at hres; simp at hres
  | some m =>
    rw [hm] at hres
    obtain rfl := Option.some.inj hres
    exact ⟨m, rfl, rfl, rfl⟩

end LLMScorer

namespace Claims
open LLMScorer

/-- C2 — Aggregation postcondition: whenever `_validate_and_aggregate`
returns a verdict, each of the six named criteria was defaulted to `0` when
absent from the input dict and otherwise clamped into `[0,5]`; the
`aggregate_score` is the sum over the six criteria of clamped value ×
fixed weight × 20, always lies in `[0,100]`, equals `100` when all six
criteria are `5` and `0` when all six are `0`. -/
theorem c2_aggregation_postcondition (d : List (String × PyVal)) (v : Verdict)
    (h : validate_and_aggregate d = some v) :
    (∀ c ∈ CRITERIA,
      (lookupField d c = none → criterionValue v c = 0) ∧
      (∀ q, lookupField d c = some (.num q) → criterionValue v c = max 0 (min 5 q)) ∧
      0 ≤ criterionValue v c ∧ criterionValue v c ≤ 5) ∧
    v.aggregate_score =
      (CRITERIA.map (fun c => criterionValue v c * CRITERIA_WEIGHTS c * 20)).sum ∧
    (0 ≤ v.aggregate_score ∧ v.aggregate_score ≤ 100) ∧
    ((∀ c ∈ CRITERIA, criterionValue v c = 5) → v.aggregate_score = 100) ∧
    ((∀ c ∈ CRITERIA, criterionValue v c = 0) → v.aggregate_score = 0) := by
  have hbounds := validate_verdict_bounds h
  rw [validate_and_aggregate_eq_some] at h
  obtain ⟨comp, tech, spec, cons, evid, prof, conf, h1, h2, h3, h4, h5, h6, h7, rfl⟩ := h
  refine ⟨?_, ?_, ⟨hbounds.1, hbounds.2.1⟩, ?_, ?_⟩
  · intro c hc
    fin_cases hc
    · exact ⟨fun hl => clampCriterion_of_none hl h1,
        fun q hl => clampCriterion_of_num hl h1, clampCriterion_bounds h1⟩
    · exact ⟨fun hl => clampCriterion_of_none hl h2,
        fun q hl => clampCriterion_of_num hl h2, clampCriterion_bounds h2⟩
    · exact ⟨fun hl => clampCriterion_of_none hl h3,
        fun q hl => clampCriterion_of_num hl h3, clampCriterion_bounds h3⟩
    · exact ⟨fun hl => clampCriterion_of_none hl h4,
        fun q hl => clampCriterion_of_num hl h4, clampCriterion_bounds h4⟩
    · exact ⟨fun hl => clampCriterion_of_none hl h5,
        fun q hl => clampCriterion_of_num hl h5, clampCriterion_bounds h5⟩
    · exact ⟨fun hl => clampCriterion_of_none hl h6,
        fun q hl => clampCriterion_of_num hl h6, clampCriterion_bounds h6⟩
  · simp only [CRITERIA, criterionValue, List.map_cons, List.map_nil, List.sum_cons,
      List.sum_nil, add_zero]
    ring
  · intro hall
    have e1 := hall "comprehension" (by simp [CRITERIA])
    have e2 := hall "technical_depth" (by simp [CRITERIA])
    have e3 := hall "specificity" (by simp [CRITERIA])
    have e4 := hall "constructiveness" (by simp [CRITERIA])
    have e5 := hall "evidence_based" (by simp [CRITERIA])
    have e6 := hall "professionalism" (by simp [CRITERIA])
    simp only [criterionValue] at e1 e2 e3 e4 e5 e6
    show comp * CRITERIA_WEIGHTS "comprehension" * 20
        + tech * CRITERIA_WEIGHTS "technical_depth" * 20
        + spec * CRITERIA_WEIGHTS "specificity" * 20
        + cons * CRITERIA_WEIGHTS "constructiveness" * 20
        + evid * CRITERIA_WEIGHTS "evidence_based" * 20
        + prof * CRITERIA_WEIGHTS "professionalism" * 20 = 100
    rw [e1, e2, e3, e4, e5, e6]
    norm_num [CRITERIA_WEIGHTS]
  · intro hall
    have e1 := hall "comprehension" (by simp [CRITERIA])
    have e2 := hall "technical_depth" (by simp [CRITERIA])
    have e3 := hall "specificity" (by simp [CRITERIA])
    have e4 := hall "constructiveness" (by simp [CRITERIA])
    have e5 := hall "evidence_based" (by simp [CRITERIA])
    have e6 := hall "professionalism" (by simp [CRITERIA])
    simp only [criterionValue] at e1 e2 e3 e4 e5 e6
    show comp * CRITERIA_WEIGHTS "comprehension" * 20
        + tech * CRITERIA_WEIGHTS "technical_depth" * 20
        + spec * CRITERIA_WEIGHTS "specificity" * 20
        + cons * CRITERIA_WEIGHTS "constructiveness" * 20
        + evid * CRITERIA_WEIGHTS "evidence_based" * 20
        + prof * CRITERIA_WEIGHTS "professionalism" * 20 = 0
    rw [e1, e2, e3, e4, e5, e6]
    norm_num [CRITERIA_WEIGHTS]

/-- Witness for C2 at `exDict`: out-of-range values are clamped (`7 → 5`,
`-3 → 0`, confidence `2 → 1`) and the aggregate stays in `[0,100]`. -/
theorem c2_aggregation_postcondition_witness :
    validate_and_aggregate exDict = some exVerdict ∧
      0 ≤ exVerdict.aggregate_score ∧ exVerdict.aggregate_score ≤ 100 :=
  ⟨validate_exDict, (c2_aggregation_postcondition exDict exVerdict validate_exDict).2.2.1⟩

/-- C6 counterexample — the claim "`_validate_and_aggregate` never
fails ... for every input dict, including dicts with invalid (non-numeric)
field values" is false: on a dict whose `comprehension` entry is a
non-numeric value, `float(result["comprehension"])` raises (modelled as
`none`) instead of returning a completed verdict. -/
theorem c6_counterexample :
    validate_and_aggregate [("comprehension", PyVal.other)] = none := by decide

/-- C6 (amended) — `_validate_and_aggregate` completes (returns a
verdict rather than raising) on every dict whose present criterion and
confidence values are float-convertible: missing criteria default to 0,
out-of-range numbers are clamped, a missing confidence defaults to 0.5.
A present non-numeric value makes `float()` raise; that exception escapes
the function (it is caught upstream by `score_review`'s handler). -/
theorem c6_aggregator_totality_amended (d : List (String × PyVal))
    (hc : ∀ c ∈ CRITERIA, ∀ w, lookupField d c = some w → ∃ q, w = .num q)
    (hconf : ∀ w, lookupField d "confidence" = some w → ∃ q, w = .num q) :
    (validate_and_aggregate d).isSome = true := by
  obtain ⟨comp, h1⟩ := clampCriterion_isSome (hc "comprehension" (by simp [CRITERIA]))
  obtain ⟨tech, h2⟩ := clampCriterion_isSome (hc "technical_depth" (by simp [CRITERIA]))
  obtain ⟨spec, h3⟩ := clampCriterion_isSome (hc "specificity" (by simp [CRITERIA]))
  obtain ⟨cons, h4⟩ := clampCriterion_isSome (hc "constructiveness" (by simp [CRITERIA]))
  obtain ⟨evid, h5⟩ := clampCriterion_isSome (hc "evidence_based" (by simp [CRITERIA]))
  obtain ⟨prof, h6⟩ := clampCriterion_isSome (hc "professionalism" (by simp [CRITERIA]))
  obtain ⟨conf, h7⟩ := clampConfidence_isSome hconf
  have : validate_and_aggregate d = some
      { comprehension := comp, technical_depth := tech, specificity := spec,
        constructiveness := cons, evidence_based := evid, professionalism := prof,
        justification := lookupField d "justification",
        confidence := conf,
        aggregate_score :=
          comp * CRITERIA_WEIGHTS "comprehension" * 20
          + tech * CRITERIA_WEIGHTS "technical_depth" * 20
          + spec * CRITERIA_WEIGHTS "specificity" * 20
          + cons * CRITERIA_WEIGHTS "constructiveness" * 20
          + evid * CRITERIA_WEIGHTS "evidence_based" * 20
          + prof * CRITERIA_WEIGHTS "professionalism" * 20,
        error := lookupField d "error" } :=
    validate_and_aggregate_eq_some.mpr
      ⟨comp, tech, spec, cons, evid, prof, conf, h1, h2, h3, h4, h5, h6, h7, rfl⟩
  rw [this]
  rfl

/-- Witness for C6 (amended) at the empty dict (all criteria and the
confidence absent). -/
theorem c6_aggregator_totality_amended_witness :
    (validate_and_aggregate ([] : List (String × PyVal))).isSome = true :=
  c6_aggregator_totality_amended []
    (by intro c _ w hw; simp [lookupField] at hw)
    (by intro w hw; simp [lookupField] at hw)

/-- C7 — Oracle-failure fallback: on a cache miss, if the oracle call
raises, or returns output on which validation raises, `score_review`
returns the deterministic fallback verdict — all six criteria 0,
confidence 0, `aggregate_score` 0, the `error` field set, a justification
describing the failure — makes exactly one oracle invocation, and leaves
the cache store unchanged (the fallback is never written to it). -/
theorem c7_oracle_failure_fallback (model : String) (oracle : Oracle)
    (a r : String) (cache : Cache)
    (hmiss : get_cached cache (cache_key model a r) = none) :
    (∀ e, oracle (a.take 1000) (r.take 3000) = .error e →
      score_review model oracle a r true cache = (fallbackVerdict e, cache, 1)) ∧
    (∀ raw, oracle (a.take 1000) (r.take 3000) = .ok raw →
      validate_and_aggregate raw = none →
      score_review model oracle a r true cache
        = (fallbackVerdict floatErrorMessage, cache, 1)) ∧
    (∀ e, (fallbackVerdict e).comprehension = 0 ∧ (fallbackVerdict e).technical_depth = 0 ∧
      (fallbackVerdict e).specificity = 0 ∧ (fallbackVerdict e).constructiveness = 0 ∧
      (fallbackVerdict e).evidence_based = 0 ∧ (fallbackVerdict e).professionalism = 0 ∧
      (fallbackVerdict e).confidence = 0 ∧ (fallbackVerdict e).aggregate_score = 0 ∧
      (fallbackVerdict e).error = some (.str e) ∧
      (fallbackVerdict e).justification
        = some (.str ("Error during scoring: " ++ e))) := by
  refine ⟨?_, ?_, ?_⟩
  · intro e he
    simp [score_review, hmiss, he]
  · intro raw hok hval
    simp [score_review, hmiss, hok, hval]
  · intro e
    exact ⟨rfl, rfl, rfl, rfl, rfl, rfl, rfl, rfl, rfl, rfl⟩

/-- Witness for C7: a concrete failing oracle against an empty cache. -/
theorem c7_oracle_failure_fallback_witness :
    score_review "m" failOracle "abs" "rev" true []
      = (fallbackVerdict "timeout", [], 1) :=
  (c7_oracle_failure_fallback "m" failOracle "abs" "rev" [] (by decide)).1 "timeout" rfl

/-- C4 — Cache round-trip: on a fresh key, a successful first
`score_review` call invokes the oracle once and stores the validated
verdict under the deterministic digest of `(model, context, text)`; a
second call with the identical triple finds the key in the cache store and
returns the stored verdict with zero oracle invocations, so the two calls
together invoke the oracle exactly once. -/
theorem c4_cache_round_trip (model : String) (oracle : Oracle) (a r : String)
    (cache : Cache) (raw : List (String × PyVal)) (v : Verdict)
    (hmiss : get_cached cache (cache_key model a r) = none)
    (hok : oracle (a.take 1000) (r.take 3000) = .ok raw)
    (hval : validate_and_aggregate raw = some v) :
    score_review model oracle a r true cache
      = (v, save_cache cache (cache_key model a r) v, 1) ∧
    get_cached (save_cache cache (cache_key model a r) v) (cache_key model a r)
      = some v ∧
    score_review model oracle a r true (save_cache cache (cache_key model a r) v)
      = (v, save_cache cache (cache_key model a r) v, 0) ∧
    1 + 0 = 1 := by
  have hget : get_cached (save_cache cache (cache_key model a r) v)
      (cache_key model a r) = some v := by
    simp [get_cached, save_cache, List.find?]
  refine ⟨?_, hget, ?_, rfl⟩
  · simp [score_review, hmiss, hok, hval]
  · simp [score_review, hget]

/-- Witness for C4: round-trip through an initially empty cache with a
well-behaved oracle. -/
theorem c4_cache_round_trip_witness :
    score_review "m" okOracle "abs" "rev" true []
      = (allFiveVerdict, save_cache [] (cache_key "m" "abs" "rev") allFiveVerdict, 1) ∧
    score_review "m" okOracle "abs" "rev" true
        (save_cache [] (cache_key "m" "abs" "rev") allFiveVerdict)
      = (allFiveVerdict, save_cache [] (cache_key "m" "abs" "rev") allFiveVerdict, 0) :=
  ⟨(c4_cache_round_trip "m" okOracle "abs" "rev" [] allFiveRaw allFiveVerdict
      (by decide) rfl validate_allFiveRaw).1,
   (c4_cache_round_trip "m" okOracle "abs" "rev" [] allFiveRaw allFiveVerdict
      (by decide) rfl validate_allFiveRaw).2.2.1⟩

/-- C5 — Empty-input short-circuit: in `score_reviews_for_paper`, a
submission whose text is empty or missing is scored with the zero
fallback dict (`aggregate_score` 0, `confidence` 0), its final reward is 0
at every rank, and processing it makes zero oracle invocations and leaves
the cache untouched, whatever the cache state. -/
theorem c5_empty_input_short_circuit (model : String) (oracle : Oracle)
    (a : String) (reviews : List GroupedReview) (cache : Cache)
    (i : ℕ) (rv : GroupedReview)
    (hi : reviews.get? i = some rv) (hempty : rv.review_text.getD "" = "") :
    (score_reviews_for_paper model oracle a reviews cache).1.get? i
      = some Score.emptyReview ∧
    Score.emptyReview.aggregate_score = 0 ∧ Score.emptyReview.confidence = 0 ∧
    (∀ rank, rewardOf Score.emptyReview rank = 0) ∧
    (∀ c : Cache, scoreOne model oracle a rv c = (Score.emptyReview, c, 0)) := by
  refine ⟨scores_get?_of_empty model oracle a reviews cache i rv hi hempty, rfl, rfl, ?_, ?_⟩
  · intro rank
    simp [rewardOf, Score.aggregate_score, Score.confidence]
  · intro c
    simp [scoreOne, hempty]

/-- Witness for C5: a single submission with empty text against a
call-counting oracle stub. -/
theorem c5_empty_input_short_circuit_witness :
    (score_reviews_for_paper "m" okOracle "abs" [⟨0, some ""⟩] []).1.get? 0
      = some Score.emptyReview ∧
    rewardOf Score.emptyReview 3 = 0 ∧
    scoreOne "m" okOracle "abs" ⟨0, some ""⟩ [] = (Score.emptyReview, [], 0) :=
  ⟨(c5_empty_input_short_circuit "m" okOracle "abs" [⟨0, some ""⟩] [] 0 ⟨0, some ""⟩
      rfl rfl).1,
   (c5_empty_input_short_circuit "m" okOracle "abs" [⟨0, some ""⟩] [] 0 ⟨0, some ""⟩
      rfl rfl).2.2.2.1 3,
   (c5_empty_input_short_circuit "m" okOracle "abs" [⟨0, some ""⟩] [] 0 ⟨0, some ""⟩
      rfl rfl).2.2.2.2 []⟩

/-- C3 — Ranking and reward: `argsortDesc` (the embedding of
`np.argsort(...)[::-1]`) always yields a permutation of `0..n-1`; reading
the scores along it is descending; the `rank`-th assignment of the group
loop targets index `ranked_indices[rank]` with reward
`aggregate_score · exp(-0.5·rank) · confidence`; and rank `0` receives
decay factor exactly `1`. -/
theorem c3_ranking_and_reward :
    (∀ xs : List ℚ, List.Perm (argsortDesc xs) (List.range xs.length)) ∧
    (∀ xs : List ℚ, ((argsortDesc xs).map (fun i => xs.getD i 0)).Sorted (· ≥ ·)) ∧
    (∀ (group : List GroupedReview) (scores : List Score) (rank : ℕ),
      (rankAndAssign group scores).get? rank
        = ((argsortDesc (scores.map Score.aggregate_score)).get? rank).map
            (fun idx =>
              ((group.getD idx ⟨0, none⟩).miner_uid,
               scores.getD idx Score.emptyReview,
               rewardOf (scores.getD idx Score.emptyReview) rank))) ∧
    (∀ (s : Score) (rank : ℕ),
      rewardOf s rank
        = (s.aggregate_score : ℝ) * Real.exp (-0.5 * (rank : ℝ)) * (s.confidence : ℝ)) ∧
    (∀ s : Score, rewardOf s 0 = (s.aggregate_score : ℝ) * 1 * (s.confidence : ℝ)) := by
  refine ⟨?_, ?_, ?_, fun s rank => rfl, ?_⟩
  · intro xs
    exact (List.reverse_perm _).trans (List.perm_insertionSort _ _)
  · intro xs
    haveI : IsTotal ℕ (fun i j : ℕ => xs.getD i 0 ≤ xs.getD j 0) :=
      ⟨fun a b => le_total _ _⟩
    haveI : IsTrans ℕ (fun i j : ℕ => xs.getD i 0 ≤ xs.getD j 0) :=
      ⟨fun a b c hab hbc => le_trans hab hbc⟩
    have hs := List.sorted_insertionSort
      (fun i j : ℕ => xs.getD i 0 ≤ xs.getD j 0) (List.range xs.length)
    exact List.pairwise_map.mpr (List.pairwise_reverse.mpr (hs.imp (fun h => h)))
  · intro group scores rank
    unfold rankAndAssign
    rw [List.get?_map, List.get?_enum]
    cases (argsortDesc (scores.map Score.aggregate_score)).get? rank <;> rfl
  · intro s
    unfold rewardOf
    norm_num

/-- C8 counterexample — the fixed placeholder `score_reviews_grouped`
uses as context for an item with neither stored abstract nor title is the
string `"Unknown paper"`, not the claimed `"Unknown item"`. -/
theorem c8_counterexample :
    resolveContext (paperInfoOf [] "p1") = "Unknown paper" ∧
    resolveContext (paperInfoOf [] "p1") ≠ "Unknown item" := by
  constructor
  · rfl
  · decide

/-- C8 (amended) — Missing-context policy with the placeholder the code
actually uses: when an item group's stored abstract is absent or empty, the
context falls back to `paper_info.get("title", "Unknown paper")` — the
title when stored, else the fixed placeholder `"Unknown paper"` — and the
group is still scored: the entry point completes on any non-empty response
list, whatever the metadata. -/
theorem c8_missing_context_amended (metadata : List (String × PaperInfo))
    (pid : String) :
    ((paperInfoOf metadata pid).abstract.getD "" = "" →
      resolveContext (paperInfoOf metadata pid)
        = (paperInfoOf metadata pid).title.getD "Unknown paper") ∧
    ((paperInfoOf metadata pid).abstract.getD "" = "" →
      (paperInfoOf metadata pid).title = none →
      resolveContext (paperInfoOf metadata pid) = "Unknown paper") ∧
    (∀ (model : String) (oracle : Oracle) (responses : List Response)
        (cache : Cache), responses ≠ [] →
      (score_reviews_grouped model oracle metadata responses cache).isSome = true) := by
  refine ⟨?_, ?_, ?_⟩
  · intro ha
    simp [resolveContext, ha]
  · intro ha ht
    simp [resolveContext, ha, ht]
  · intro model oracle responses cache h
    exact score_reviews_grouped_isSome model oracle metadata responses cache h

/-- Witness for C8 (amended): empty metadata, one response. -/
theorem c8_missing_context_amended_witness :
    resolveContext (paperInfoOf [] "p1") = (paperInfoOf [] "p1").title.getD "Unknown paper" ∧
    (score_reviews_grouped "m" failOracle [] [⟨some "p1", some "text", none, none⟩] []).isSome
      = true :=
  ⟨(c8_missing_context_amended [] "p1").1 rfl,
   (c8_missing_context_amended [] "p1").2.2 "m" failOracle
     [⟨some "p1", some "text", none, none⟩] [] (List.cons_ne_nil _ _)⟩

/-- C10 — Non-empty-input precondition: on an empty response list
`score_reviews_grouped` raises (the `max()` reduction over the zero-size
reward array, modelled as `none`) instead of returning an empty reward
vector; on any non-empty response list it returns normally. -/
theorem c10_empty_input_raises (model : String) (oracle : Oracle)
    (metadata : List (String × PaperInfo)) (cache : Cache) :
    score_reviews_grouped model oracle metadata [] cache = none ∧
    (∀ responses : List Response, responses ≠ [] →
      (score_reviews_grouped model oracle metadata responses cache).isSome = true) := by
  constructor
  · rfl
  · intro responses h
    exact score_reviews_grouped_isSome model oracle metadata responses cache h

/-- Witness for C10: a singleton response list returns normally. -/
theorem c10_empty_input_raises_witness :
    (score_reviews_grouped "m" okOracle [] [⟨none, none, none, none⟩] []).isSome = true :=
  (c10_empty_input_raises "m" okOracle [] []).2 [⟨none, none, none, none⟩]
    (List.cons_ne_nil _ _)

/-- C1 — Normalization: given a well-formed cache, when the population
maximum `m` of the raw reward vector is positive, `score_reviews_grouped`
returns that vector with every entry divided by `m`, so the returned
maximum is exactly `1` and every entry lies in `[0,1]`; when the maximum is
`0` the vector is returned unchanged and is all zero (no division
occurs). -/
theorem c1_normalization (model : String) (oracle : Oracle)
    (metadata : List (String × PaperInfo)) (responses : List Response)
    (cache : Cache) (res : GroupedResult)
    (hwf : CacheWF cache)
    (hres : score_reviews_grouped model oracle metadata responses cache = some res) :
    ∀ m : ℝ,
      npMax (pipelineCore model oracle metadata responses cache).1 = some m →
      (0 < m →
        res.rewards
          = (pipelineCore model oracle metadata responses cache).1.map (· / m) ∧
        npMax res.rewards = some 1 ∧
        ∀ x ∈ res.rewards, 0 ≤ x ∧ x ≤ 1) ∧
      (m = 0 →
        res.rewards = (pipelineCore model oracle metadata responses cache).1 ∧
        ∀ x ∈ res.rewards, x = 0) := by
  intro m hm
  have hnn := pipelineCore_raw_nonneg model oracle metadata responses cache hwf
  unfold score_reviews_grouped at hres
  rcases hp : pipelineCore model oracle metadata responses cache with ⟨raw, resp, c, n⟩
  simp only [hp] at hres hm hnn ⊢
  rw [hm] at hres
  obtain rfl := Option.some.inj hres
  constructor
  · intro h0
    have hmem : (1 : ℝ) ∈ raw.map (· / m) := by
      have h1 := List.mem_map_of_mem (· / m) (npMax_mem hm)
      simpa [div_self h0.ne'] using h1
    have hub : ∀ y ∈ raw.map (· / m), y ≤ 1 := by
      intro y hy
      obtain ⟨x, hx, rfl⟩ := List.mem_map.mp hy
      exact (div_le_one h0).mpr (npMax_is_ub hm x hx)
    rw [if_pos h0]
    refine ⟨rfl, npMax_eq_some hmem hub, ?_⟩
    intro y hy
    obtain ⟨x, hx, rfl⟩ := List.mem_map.mp hy
    exact ⟨div_nonneg (hnn x hx) h0.le, (div_le_one h0).mpr (npMax_is_ub hm x hx)⟩
  · intro h0
    subst h0
    rw [if_neg (lt_irrefl (0 : ℝ))]
    refine ⟨rfl, ?_⟩
    intro x hx
    exact le_antisymm (npMax_is_ub hm x hx) (hnn x hx)

/-- Witness for C1: one ungrouped response (`paper_id is None`) yields the
raw vector `[0]`, whose maximum `0` takes the unchanged (all-zero)
branch. -/
theorem c1_normalization_witness :
    score_reviews_grouped "m" okOracle [] [⟨none, none, none, none⟩] []
      = some ⟨[0], [0], [⟨none, none, none, none⟩], [], 0⟩ ∧
    (⟨[0], [0], [⟨none, none, none, none⟩], [], 0⟩ : GroupedResult).rewards
      = (pipelineCore "m" okOracle [] [⟨none, none, none, none⟩] []).1 := by
  have hres : score_reviews_grouped "m" okOracle [] [⟨none, none, none, none⟩] []
      = some ⟨[0], [0], [⟨none, none, none, none⟩], [], 0⟩ := by
    simp [score_reviews_grouped, pipelineCore, processGroups, groupByPaper, groupStep, npMax,
      List.enum, List.enumFrom, List.foldl, List.range_succ]
  refine ⟨hres, ?_⟩
  exact ((c1_normalization "m" okOracle [] [⟨none, none, none, none⟩] []
      ⟨[0], [0], [⟨none, none, none, none⟩], [], 0⟩
      (by intro p hp; cases hp) hres) 0 (by rfl)).2 rfl |>.1

/-- C9 counterexample — the claim says `final_score` equals the value
at the submission's index in the returned (normalized) reward vector.  On a
single all-5 submission the raw reward is `100`, the returned vector is
`[1]`, yet the written-back `final_score` is `100` — the write-back happens
before normalization, so the claim is false. -/
theorem c9_counterexample :
    (score_reviews_grouped "m" okOracle [] [⟨some "p", some "rev", none, none⟩] []).map
        (fun res => (res.rewards, res.responses.map Response.final_score))
      = some ([1], [some 100]) ∧
    (100 : ℝ) ≠ 1 := by
  constructor
  · simp [score_reviews_grouped, eval_pipelineCore_ok, npMax, List.range_succ]
  · norm_num

/-- C9 (amended) — Result write-back: the assignment loop targets
exactly the indices of the responses that carry a `paper_id` (each exactly
once); for every assignment triple `(uid, score, reward)` the mutated
record at `uid` carries `review_score = score` and `final_score = reward`,
where `reward` is the raw, pre-normalization reward — the raw vector's
entry at `uid` — while the returned vector instead holds the normalized
value `reward / max` whenever the population maximum is positive. -/
theorem c9_result_write_back_amended (model : String) (oracle : Oracle)
    (metadata : List (String × PaperInfo)) (responses : List Response)
    (cache : Cache) (res : GroupedResult)
    (hres : score_reviews_grouped model oracle metadata responses cache = some res) :
    List.Perm
      ((processGroups model oracle metadata (groupByPaper responses) cache).1.map (·.1))
      (uidsOf responses.enum) ∧
    ∀ a ∈ (processGroups model oracle metadata (groupByPaper responses) cache).1,
      res.responses[a.1]?
        = some { responses.getD a.1 ⟨none, none, none, none⟩ with
                 review_score := some a.2.1, final_score := some a.2.2 } ∧
      (pipelineCore model oracle metadata responses cache).1[a.1]? = some a.2.2 ∧
      (∀ m : ℝ, npMax (pipelineCore model oracle metadata responses cache).1 = some m →
        0 < m → res.rewards[a.1]? = some (a.2.2 / m)) := by
  have hperm : List.Perm
      ((processGroups model oracle metadata (groupByPaper responses) cache).1.map (·.1))
      (uidsOf responses.enum) :=
    (processGroups_uids_perm model oracle metadata (groupByPaper responses) cache).trans
      (groupUids_groupByPaper responses)
  refine ⟨hperm, ?_⟩
  intro a ha
  have hnd : ((processGroups model oracle metadata (groupByPaper responses) cache).1.map
      (·.1)).Nodup := hperm.nodup_iff.mpr (uidsOf_enum_nodup responses)
  have hbound : ∀ b ∈ (processGroups model oracle metadata (groupByPaper responses) cache).1,
      b.1 < responses.length := by
    intro b hb
    exact uidsOf_enum_lt responses b.1 (hperm.subset (List.mem_map_of_mem (·.1) hb))
  have hspec := foldl_applyAssign_spec
    (processGroups model oracle metadata (groupByPaper responses) cache).1
    (List.replicate responses.length 0, responses)
    (by simpa using hbound) (by simp) hnd a ha
  have hcomp := pipelineCore_components model oracle metadata responses cache
  obtain ⟨m, hm, hrw, hresp⟩ := score_reviews_grouped_some_parts hres
  have hraw : (pipelineCore model oracle metadata responses cache).1[a.1]? = some a.2.2 := by
    rw [hcomp.1]
    exact hspec.1
  refine ⟨?_, hraw, ?_⟩
  · rw [hresp, hcomp.2]
    exact hspec.2
  · intro m' hm' h0
    obtain rfl : m = m' := by
      rw [hm] at hm'
      exact Option.some.inj hm'
    rw [hrw, if_pos h0, List.getElem?_map, hraw]
    rfl

/-- Witness for C9 (amended) at the single all-5 submission: the write-back
record keeps the raw reward `rewardOf (verdict) 0` (= 100) even though the
returned vector entry is `1`. -/
theorem c9_result_write_back_amended_witness :
    score_reviews_grouped "m" okOracle [] [⟨some "p", some "rev", none, none⟩] []
      = some ⟨[1], [0],
          [⟨some "p", some "rev", some (Score.verdict allFiveVerdict), some 100⟩],
          [(cache_key "m" "Unknown paper" "rev", allFiveVerdict)], 1⟩ ∧
    (⟨[1], [0], [⟨some "p", some "rev", some (Score.verdict allFiveVerdict), some 100⟩],
        [(cache_key "m" "Unknown paper" "rev", allFiveVerdict)], 1⟩ :
        GroupedResult).responses[0]?
      = some ⟨some "p", some "rev", some (Score.verdict allFiveVerdict),
          some (rewardOf (Score.verdict allFiveVerdict) 0)⟩ := by
  have hres : score_reviews_grouped "m" okOracle [] [⟨some "p", some "rev", none, none⟩] []
      = some ⟨[1], [0],
          [⟨some "p", some "rev", some (Score.verdict allFiveVerdict), some 100⟩],
          [(cache_key "m" "Unknown paper" "rev", allFiveVerdict)], 1⟩ := by
    simp [score_reviews_grouped, eval_pipelineCore_ok, npMax, List.range_succ]
  have hmem : (0, Score.verdict allFiveVerdict, rewardOf (Score.verdict allFiveVerdict) 0)
      ∈ (processGroups "m" okOracle []
          (groupByPaper [⟨some "p", some "rev", none, none⟩]) []).1 := by
    rw [show groupByPaper [⟨some "p", some "rev", none, none⟩]
        = [("p", [⟨0, some "rev"⟩])] from rfl]
    rw [eval_processGroups_ok]
    exact List.mem_singleton.mpr rfl
  have happ := (c9_result_write_back_amended "m" okOracle []
    [⟨some "p", some "rev", none, none⟩] [] _ hres).2 _ hmem
  exact ⟨hres, happ.1⟩

end Claims
